import Mathlib

/-!
Shallow embedding of the bookmarks picker from `crates/bookmarks/src/bookmarks.rs`
and the bookmark record from `crates/project/src/bookmarks.rs`.

Modelling conventions:
* Rust strings are modelled as `List Char`; `str::trim_start` becomes
  `List.dropWhile Char.isWhitespace`, `chars().any(|c| c.is_uppercase())`
  becomes `List.any Char.isUpper`.
* `f64` scores are only ever compared (through `OrderedFloat`), never computed
  with, so they are modelled as rationals.
* `usize` arithmetic that can underflow is made explicit: `ix - 1` is modelled
  with wrapping (release-mode) semantics modulo `2 ^ 64`.
* Indexing expressions that can abort (`v[i]` on an out-of-range index,
  `Vec::remove` out of range) are modelled with `Option`, `none` standing for
  the abort.
* The fuzzy engine `fuzzy::match_strings` is an external capability consumed by
  this crate; it is a parameter of every operation that calls it.
-/

namespace Bookmarks

/-- `text::Point`: a zero-based row/column text position. -/
structure Point where
  row : Nat
  column : Nat
deriving DecidableEq

/-- `project::ProjectPath`: a worktree id plus a project-relative path. -/
structure ProjectPath where
  worktree_id : Nat
  path : List Char
deriving DecidableEq

/-- `Bookmark` from `crates/project/src/bookmarks.rs`: a label, a
project-relative location, an absolute path and a cursor position. -/
structure Bookmark where
  label : List Char
  project_path : ProjectPath
  abs_path : List Char
  point : Point
deriving DecidableEq

/-- `fuzzy::StringMatchCandidate`: a stable integer id paired with the text to
match; built fresh from the store on every recompute. -/
structure StringMatchCandidate where
  id : Nat
  string : List Char
deriving DecidableEq

/-- `fuzzy::StringMatch`: the candidate id, the score and the matched
positions. -/
structure StringMatch where
  candidate_id : Nat
  score : ℚ
  positions : List Nat
deriving DecidableEq

/-- The consumed fuzzy-match capability `fuzzy::match_strings`:
`(query, candidates, case_sensitive_hint, limit) ↦ matches`. The picker
consumes it abstractly, so the claims quantify over every such function. -/
abbrev Engine :=
  List Char → List StringMatchCandidate → Bool → Nat → List StringMatch

/-- The picker-relevant state of `BookmarkViewDelegate` (lines 89 to 95): the
current match list (the source field `matches`, a Lean keyword, hence
`match_list` here) and the selected index. The remaining fields are host view
handles with no bearing on picker logic. -/
structure BookmarkViewDelegate where
  match_list : List StringMatch
  selected_index : Nat
deriving DecidableEq

/-- Line 168: `let query = query.trim_start();`. -/
def trim_start (q : List Char) : List Char :=
  q.dropWhile Char.isWhitespace

/-- Line 169: `let smart_case = query.chars().any(|c| c.is_uppercase());`. -/
def smart_case (q : List Char) : Bool :=
  q.any Char.isUpper

/-- Lines 171 to 179: snapshot the store into candidates, `id` being the
bookmark's current position. -/
def candidates_of (bookmarks : List Bookmark) : List StringMatchCandidate :=
  bookmarks.enum.map (fun p => { id := p.1, string := p.2.label })

/-- One comparison step of Rust's `Iterator::max_by_key`: the accumulator is
replaced when the new element's key is greater or equal, so among equal keys
the element seen last wins. -/
def max_step {α β : Type} [LinearOrder β] (key : α → β) (acc y : α) : α :=
  if key acc ≤ key y then y else acc

/-- Rust's `Iterator::max_by_key`: `none` on the empty list, otherwise the
element with the maximum key, the last such element winning ties. -/
def max_by_key {α β : Type} [LinearOrder β] (key : α → β) : List α → Option α
  | [] => none
  | x :: xs => some (xs.foldl (max_step key) x)

/-- Lines 191 to 198: `self.matches.iter().enumerate().rev()
.max_by_key(|(_, m)| OrderedFloat(m.score)).map(|(ix, _)| ix).unwrap_or(0)`. -/
def selected_index_of (ms : List StringMatch) : Nat :=
  ((max_by_key (fun p : Nat × StringMatch => p.2.score)
    ms.enum.reverse).map Prod.fst).getD 0

/-- Lines 181 to 189: call the engine on the trimmed query with the smart-case
hint and limit 100, then `sort_unstable_by_key(|m| m.candidate_id)`. The sort
is modelled by `List.insertionSort` on the same key: `sort_unstable_by_key`
guarantees a permutation sorted by the key and nothing more, which
`insertionSort` satisfies while staying kernel-reducible. -/
def sorted_engine_matches (engine : Engine) (bookmarks : List Bookmark)
    (query : List Char) : List StringMatch :=
  ((engine (trim_start query) (candidates_of bookmarks)
      (smart_case (trim_start query)) 100).insertionSort
    (fun a b => a.candidate_id ≤ b.candidate_id))

/-- `BookmarkViewDelegate::update_matches` (lines 163 to 201): replace the
match list with the sorted engine output and recompute the selected index.
Both stored fields are overwritten, so the result does not depend on the
previous delegate state. -/
def update_matches (engine : Engine) (bookmarks : List Bookmark)
    (query : List Char) : BookmarkViewDelegate :=
  { match_list := sorted_engine_matches engine bookmarks query,
    selected_index := selected_index_of (sorted_engine_matches engine bookmarks query) }

/-- `usize` subtraction `ix - 1` with release-mode wrapping semantics: at
`ix = 0` the value wraps to `2 ^ 64 - 1` (a debug build aborts instead). -/
def usize_sub_one (ix : Nat) : Nat :=
  (ix + (2 ^ 64 - 1)) % 2 ^ 64

/-- The observable outcome of `delete_bookmark`: the store after removal, the
provisional delegate state set by `set_selected_index(ix - 1)`, and the state
after the re-issued `update_matches` on the current query. -/
structure DeleteOutcome where
  store : List Bookmark
  provisional : BookmarkViewDelegate
  after_recompute : BookmarkViewDelegate
deriving DecidableEq

/-- `BookmarkViewDelegate::delete_bookmark` (lines 112 to 136): index the store
at the ROW index `ix` (`&bookmarks[ix]`, an abort when out of range, modelled
by `none`), remove at `ix` (`bookmarks.remove(ix)`), then in the spawned
continuation call `set_selected_index(ix - 1)` and `update_matches` with the
current query. -/
def delete_bookmark (engine : Engine) (st : BookmarkViewDelegate)
    (bookmarks : List Bookmark) (query : List Char) (ix : Nat) :
    Option DeleteOutcome :=
  if ix < bookmarks.length then
    some { store := bookmarks.eraseIdx ix,
           provisional := { st with selected_index := usize_sub_one ix },
           after_recompute := update_matches engine (bookmarks.eraseIdx ix) query }
  else
    none

/-- Deletion at the selected row: `render_match` wires the selected row's
delete button to `delete_bookmark(ix)` with `ix` the row index (line 288), and
for the selected row `ix = selected_index` (line 294). -/
def delete_at_selection (engine : Engine) (st : BookmarkViewDelegate)
    (bookmarks : List Bookmark) (query : List Char) : Option DeleteOutcome :=
  delete_bookmark engine st bookmarks query st.selected_index

/-- Outcome of `confirm`: no selection (`matches.get` returned `None`), an
abort on an out-of-range store index, or navigation to a bookmark. -/
inductive ConfirmResult where
  | noSelection : ConfirmResult
  | fault : ConfirmResult
  | navigate : Bookmark → ConfirmResult
deriving DecidableEq

/-- `BookmarkViewDelegate::confirm` (lines 203 to 238): look up the selected
match with `matches.get`; when present, index the store at `m.candidate_id`
WITHOUT a bounds check (`bookmarks()[m.candidate_id]`, line 207) — `fault`
models that abort — and navigate to the bookmark found. -/
def confirm (st : BookmarkViewDelegate) (bookmarks : List Bookmark) :
    ConfirmResult :=
  match st.match_list.get? st.selected_index with
  | none => ConfirmResult.noSelection
  | some m =>
    match bookmarks.get? m.candidate_id with
    | none => ConfirmResult.fault
    | some b => ConfirmResult.navigate b

/-- `BookmarkViewDelegate::render_match` (lines 246 to 301), restricted to
which bookmark the row shows: the outer `none` models the abort of
`&self.matches[ix]` on a bad row index; `some none` is the explicit skip at
lines 255 to 257 when `candidate_id >= bookmarks.len()`. -/
def render_match (st : BookmarkViewDelegate) (bookmarks : List Bookmark)
    (ix : Nat) : Option (Option Bookmark) :=
  match st.match_list.get? ix with
  | none => none
  | some candidate =>
    if bookmarks.length ≤ candidate.candidate_id then some none
    else some (bookmarks.get? candidate.candidate_id)

/-- Concrete bookmark used in evaluations. -/
def bookmark_a : Bookmark :=
  { label := ['a'], project_path := { worktree_id := 0, path := ['a'] },
    abs_path := ['a'], point := { row := 0, column := 0 } }

/-- Concrete bookmark used in evaluations. -/
def bookmark_b : Bookmark :=
  { label := ['b'], project_path := { worktree_id := 0, path := ['b'] },
    abs_path := ['b'], point := { row := 1, column := 0 } }

/-- Concrete bookmark used in evaluations. -/
def bookmark_c : Bookmark :=
  { label := ['c'], project_path := { worktree_id := 0, path := ['c'] },
    abs_path := ['c'], point := { row := 2, column := 0 } }

/-- A three-bookmark store. -/
def store3 : List Bookmark := [bookmark_a, bookmark_b, bookmark_c]

/-- A one-bookmark store. -/
def store1 : List Bookmark := [bookmark_a]

/-- Engine returning no matches. -/
def engine_empty : Engine := fun _ _ _ _ => []

/-- Engine returning a single match for candidate 0. -/
def engine_single : Engine := fun _ _ _ _ =>
  [{ candidate_id := 0, score := 1, positions := [] }]

/-- The rational 1/2, given in normalised form so the kernel can evaluate
comparisons on it. -/
def half : ℚ := ⟨1, 2, by decide, by decide⟩

/-- The rational 9/10, given in normalised form so the kernel can evaluate
comparisons on it. -/
def nine_tenths : ℚ := ⟨9, 10, by decide, by decide⟩

/-- Engine realising the tie-break example of the claims: scores
`[0.5, 0.9, 0.9]` at candidate ids `[0, 1, 2]`. -/
def engine_tie : Engine := fun _ _ _ _ =>
  [{ candidate_id := 0, score := half, positions := [] },
   { candidate_id := 1, score := nine_tenths, positions := [] },
   { candidate_id := 2, score := nine_tenths, positions := [] }]

/-- Engine realising a filtered match list over `store3`: only candidates 0
and 2 match, candidate 2 scoring higher. -/
def engine_filtered : Engine := fun _ _ _ _ =>
  [{ candidate_id := 0, score := half, positions := [] },
   { candidate_id := 2, score := nine_tenths, positions := [] }]

/-- A stale delegate state: one match whose `candidate_id` is 1, out of range
for `store1` of length 1. -/
def stale_state : BookmarkViewDelegate :=
  { match_list := [{ candidate_id := 1, score := 1, positions := [] }],
    selected_index := 0 }

/-- A delegate state with the first (index 0) row selected. -/
def zero_state : BookmarkViewDelegate :=
  { match_list := [{ candidate_id := 0, score := 1, positions := [] }],
    selected_index := 0 }

/-- A whitespace character is never an uppercase character. -/
theorem whitespace_not_upper (c : Char) (h : c.isWhitespace = true) :
    c.isUpper = false := by
  simp only [Char.isWhitespace, Bool.or_eq_true, decide_eq_true_eq] at h
  rcases h with ((h | h) | h) | h <;> subst h <;> decide

/-- C8: the case-sensitivity hint that `update_matches` passes to the engine,
namely `smart_case` of the trimmed query, is true exactly when the original
query contains at least one uppercase character. -/
theorem smart_case_hint_iff_uppercase (query : List Char) :
    smart_case (trim_start query) = query.any Char.isUpper := by
  induction query with
  | nil => rfl
  | cons c q ih =>
    by_cases hc : c.isWhitespace = true
    · have hcu := whitespace_not_upper c hc
      simpa [trim_start, List.dropWhile_cons, hc, hcu] using ih
    · simp [trim_start, List.dropWhile_cons, hc, smart_case]

/-- Removing a leading all-whitespace block does not change `trim_start`. -/
theorem trim_start_append (ws q : List Char)
    (h : ∀ c ∈ ws, c.isWhitespace = true) :
    trim_start (ws ++ q) = trim_start q := by
  induction ws with
  | nil => rfl
  | cons c t ih =>
    have hc := h c (List.mem_cons_self c t)
    have ht := ih (fun x hx => h x (List.mem_cons_of_mem c hx))
    simpa [trim_start, List.dropWhile_cons, hc] using ht

/-- C9: prepending leading whitespace to the query changes neither the match
list nor the selected index, for every engine and store. -/
theorem update_matches_leading_whitespace (engine : Engine)
    (bookmarks : List Bookmark) (ws q : List Char)
    (h : ∀ c ∈ ws, c.isWhitespace = true) :
    update_matches engine bookmarks (ws ++ q) =
      update_matches engine bookmarks q := by
  unfold update_matches sorted_engine_matches
  rw [trim_start_append ws q h]

/-- C9 witness: a single leading blank before query `a` is dropped. -/
theorem update_matches_leading_whitespace_witness :
    (∀ c ∈ [' '], c.isWhitespace = true) ∧
    update_matches engine_single [] ([' '] ++ ['a']) =
      update_matches engine_single [] ['a'] :=
  ⟨by decide,
   update_matches_leading_whitespace engine_single [] [' '] ['a'] (by decide)⟩

/-- C10: a completed recompute that produced an empty match list sets
`selected_index` to exactly 0. -/
theorem update_matches_empty_selects_zero (engine : Engine)
    (bookmarks : List Bookmark) (query : List Char)
    (h : (update_matches engine bookmarks query).match_list = []) :
    (update_matches engine bookmarks query).selected_index = 0 := by
  have h2 : sorted_engine_matches engine bookmarks query = [] := h
  show selected_index_of (sorted_engine_matches engine bookmarks query) = 0
  rw [h2]
  rfl

/-- C10 witness: an engine returning no matches yields selected index 0. -/
theorem update_matches_empty_selects_zero_witness :
    (update_matches engine_empty [] []).match_list = [] ∧
    (update_matches engine_empty [] []).selected_index = 0 :=
  ⟨by decide, update_matches_empty_selects_zero engine_empty [] [] (by decide)⟩

/-- C6: after every recompute, for every engine result order and score
distribution, the stored match list is sorted ascending by candidate id. -/
theorem update_matches_sorted_by_candidate_id (engine : Engine)
    (bookmarks : List Bookmark) (query : List Char) :
    List.Sorted (fun a b => a.candidate_id ≤ b.candidate_id)
      (update_matches engine bookmarks query).match_list := by
  haveI : IsTotal StringMatch (fun a b => a.candidate_id ≤ b.candidate_id) :=
    ⟨fun a b => Nat.le_total a.candidate_id b.candidate_id⟩
  haveI : IsTrans StringMatch (fun a b => a.candidate_id ≤ b.candidate_id) :=
    ⟨fun a b c hab hbc => Nat.le_trans hab hbc⟩
  exact List.sorted_insertionSort _ _

/-- `List.foldl` over `max_step` splits the traversed list around its result:
elements before the result are at most it, elements after it are strictly
below it, so the result is the last maximum of `acc :: l`. -/
theorem foldl_max_step_split {α β : Type} [LinearOrder β] (key : α → β)
    (l : List α) :
    ∀ acc : α, ∃ l₁ l₂,
      acc :: l = l₁ ++ (l.foldl (max_step key) acc) :: l₂ ∧
      (∀ y ∈ l₁, key y ≤ key (l.foldl (max_step key) acc)) ∧
      (∀ y ∈ l₂, key y < key (l.foldl (max_step key) acc)) := by
  induction l with
  | nil =>
    intro acc
    exact ⟨[], [], rfl, by simp, by simp⟩
  | cons y ys ih =>
    intro acc
    rw [List.foldl_cons]
    obtain ⟨l₁, l₂, heq, hle, hlt⟩ := ih (max_step key acc y)
    set r := ys.foldl (max_step key) (max_step key acc y) with hrdef
    by_cases hy : key acc ≤ key y
    · have hstep : max_step key acc y = y := by simp [max_step, hy]
      rw [hstep] at heq
      have hyr : key y ≤ key r := by
        have hmem : y ∈ l₁ ++ r :: l₂ := heq ▸ List.mem_cons_self y ys
        rcases List.mem_append.mp hmem with h1 | h2
        · exact hle y h1
        · rcases List.mem_cons.mp h2 with h3 | h4
          · exact le_of_eq (congrArg key h3)
          · exact le_of_lt (hlt y h4)
      refine ⟨acc :: l₁, l₂, ?_, ?_, hlt⟩
      · rw [List.cons_append, ← heq]
      · intro z hz
        rcases List.mem_cons.mp hz with h3 | h4
        · rw [h3]
          exact le_trans hy hyr
        · exact hle z h4
    · have hstep : max_step key acc y = acc := by simp [max_step, hy]
      rw [hstep] at heq
      have hylt : key y < key acc := lt_of_not_le hy
      cases l₁ with
      | nil =>
        rw [List.nil_append] at heq
        obtain ⟨hacc, hys⟩ := List.cons.inj heq
        refine ⟨[], y :: ys, ?_, by simp, ?_⟩
        · rw [List.nil_append, hacc]
        · intro z hz
          rcases List.mem_cons.mp hz with h3 | h4
          · rw [h3, ← hacc]
            exact hylt
          · exact hlt z (hys ▸ h4)
      | cons a t =>
        rw [List.cons_append] at heq
        obtain ⟨hacc, hys⟩ := List.cons.inj heq
        have haccr : key acc ≤ key r := by
          rw [hacc]
          exact hle a (List.mem_cons_self a t)
        refine ⟨acc :: y :: t, l₂, ?_, ?_, hlt⟩
        · rw [hys, List.cons_append, List.cons_append]
        · intro z hz
          rcases List.mem_cons.mp hz with h3 | h4
          · rw [h3]
            exact haccr
          · rcases List.mem_cons.mp h4 with h5 | h6
            · rw [h5]
              exact le_trans (le_of_lt hylt) haccr
            · exact hle z (List.mem_cons_of_mem a h6)

/-- `max_by_key` on a non-empty list returns an element splitting the list:
elements traversed before it are at most it, elements after it strictly below
it (the last maximum wins, as Rust documents for `Iterator::max_by_key`). -/
theorem max_by_key_split {α β : Type} [LinearOrder β] (key : α → β)
    (l : List α) (h : l ≠ []) :
    ∃ r l₁ l₂, max_by_key key l = some r ∧ l = l₁ ++ r :: l₂ ∧
      (∀ y ∈ l₁, key y ≤ key r) ∧ (∀ y ∈ l₂, key y < key r) := by
  cases l with
  | nil => exact absurd rfl h
  | cons x xs =>
    obtain ⟨l₁, l₂, heq, hle, hlt⟩ := foldl_max_step_split key xs x
    exact ⟨xs.foldl (max_step key) x, l₁, l₂, rfl, heq, hle, hlt⟩

/-- Characterisation of `selected_index_of` on a non-empty list: the selected
index is in range, the match there carries the maximum score, and every match
strictly before it scores strictly less — the FIRST maximum wins, because the
iterator is reversed before `max_by_key` takes the last maximum. -/
theorem selected_index_of_spec (m : List StringMatch) (h : m ≠ []) :
    ∃ best, m[selected_index_of m]? = some best ∧
      (∀ x ∈ m, x.score ≤ best.score) ∧
      (∀ j, j < selected_index_of m →
        ∀ x, m[j]? = some x → x.score < best.score) := by
  have henum : m.enum.reverse ≠ [] := by
    intro hrev
    apply h
    have he : m.enum = [] := List.reverse_eq_nil_iff.mp hrev
    have hlen : m.length = 0 := by
      have h1 := congrArg List.length he
      simpa [List.enum_length] using h1
    exact List.length_eq_zero.mp hlen
  obtain ⟨r, l₁, l₂, hmax, heq, hle, hlt⟩ :=
    max_by_key_split (fun p : Nat × StringMatch => p.2.score) m.enum.reverse henum
  have hA : m.enum = l₂.reverse ++ r :: l₁.reverse := by
    have h2 := congrArg List.reverse heq
    simpa [List.reverse_append] using h2
  have hix : selected_index_of m = r.1 := by
    unfold selected_index_of
    rw [hmax]
    rfl
  have hgetr : m.enum[l₂.reverse.length]? = some r := by
    rw [hA, List.getElem?_append_right (Nat.le_refl l₂.reverse.length)]
    simp
  obtain ⟨b, hmk, hrb⟩ :
      ∃ b, m[l₂.reverse.length]? = some b ∧ r = (l₂.reverse.length, b) := by
    have h3 := List.getElem?_enum m l₂.reverse.length
    rw [hgetr] at h3
    cases hmkc : m[l₂.reverse.length]? with
    | none =>
      rw [hmkc] at h3
      simp at h3
    | some b =>
      rw [hmkc] at h3
      have h4 : some r = some (l₂.reverse.length, b) := h3
      exact ⟨b, rfl, Option.some.inj h4⟩
  have hb2 : r.2 = b := congrArg Prod.snd hrb
  refine ⟨b, ?_, ?_, ?_⟩
  · rw [hix, hrb]
    exact hmk
  · intro x hx
    obtain ⟨i, hi, hxi⟩ := List.mem_iff_getElem.mp hx
    have hie : i < m.enum.length := by simpa [List.enum_length] using hi
    have hmem : (i, x) ∈ m.enum := by
      have h4 : m.enum[i] = (i, x) := by
        rw [List.getElem_enum]
        exact congrArg (fun z => (i, z)) hxi
      rw [← h4]
      exact List.getElem_mem hie
    rw [hA] at hmem
    rcases List.mem_append.mp hmem with h5 | h6
    · have h7 := hlt (i, x) (List.mem_reverse.mp h5)
      exact le_of_lt (hb2 ▸ h7)
    · rcases List.mem_cons.mp h6 with h7 | h8
      · have h9 : x = b := congrArg Prod.snd (h7.trans hrb)
        exact le_of_eq (congrArg StringMatch.score h9)
      · have h9 := hle (i, x) (List.mem_reverse.mp h8)
        exact hb2 ▸ h9
  · intro j hj x hx
    rw [hix, hrb] at hj
    have hjk : j < l₂.reverse.length := hj
    have h4 : m.enum[j]? = some (j, x) := by
      rw [List.getElem?_enum, hx]
      rfl
    have h5 : m.enum[j]? = l₂.reverse[j]? := by
      rw [hA, List.getElem?_append]
      rw [if_pos hjk]
    have h6 : (j, x) ∈ l₂.reverse := by
      have h7 : l₂.reverse[j]? = some (j, x) := by
        rw [← h5]
        exact h4
      obtain ⟨hjl, hgl⟩ := List.getElem?_eq_some.mp h7
      rw [← hgl]
      exact List.getElem_mem hjl
    have h8 := hlt (j, x) (List.mem_reverse.mp h6)
    exact hb2 ▸ h8

/-- On a non-empty list the selected index is strictly below the length. -/
theorem selected_index_of_lt (m : List StringMatch) (h : m ≠ []) :
    selected_index_of m < m.length := by
  obtain ⟨best, hb, -, -⟩ := selected_index_of_spec m h
  obtain ⟨hlt, -⟩ := List.getElem?_eq_some.mp hb
  exact hlt

/-- C7: immediately after a completed recompute that produced a non-empty
match list, `selected_index < match_count` holds (the lower bound `0 ≤` is
inherent to `Nat`). -/
theorem update_matches_selected_index_in_range (engine : Engine)
    (bookmarks : List Bookmark) (query : List Char)
    (h : (update_matches engine bookmarks query).match_list ≠ []) :
    (update_matches engine bookmarks query).selected_index <
      (update_matches engine bookmarks query).match_list.length :=
  selected_index_of_lt (update_matches engine bookmarks query).match_list h

/-- C7 witness: an engine returning one match gives a selected index in
range. -/
theorem update_matches_selected_index_in_range_witness :
    (update_matches engine_single [] []).match_list ≠ [] ∧
    (update_matches engine_single [] []).selected_index <
      (update_matches engine_single [] []).match_list.length :=
  ⟨by decide,
   update_matches_selected_index_in_range engine_single [] [] (by decide)⟩

/-- C2 counterexample: with engine scores `[0.5, 0.9, 0.9]` at candidate ids
`[0, 1, 2]` (already in ascending id order), the recompute selects index 1 —
the EARLIER of the two maximum-score positions — not index 2 as the claim
requires. -/
theorem update_matches_tie_prefers_earlier_cex :
    (update_matches engine_tie [] []).match_list.map StringMatch.candidate_id
        = [0, 1, 2] ∧
    (update_matches engine_tie [] []).selected_index = 1 ∧ (1 : Nat) ≠ 2 := by
  decide

/-- C2 (amended): after every completed recompute with a non-empty match list,
`selected_index` is the position within the sorted match list of a match with
the maximum score, ties broken towards the EARLIER position: every match
strictly before the selected one scores strictly less. -/
theorem update_matches_selected_is_first_max (engine : Engine)
    (bookmarks : List Bookmark) (query : List Char)
    (h : (update_matches engine bookmarks query).match_list ≠ []) :
    ∃ best,
      (update_matches engine bookmarks query).match_list[
          (update_matches engine bookmarks query).selected_index]? = some best ∧
      (∀ x ∈ (update_matches engine bookmarks query).match_list,
        x.score ≤ best.score) ∧
      (∀ j, j < (update_matches engine bookmarks query).selected_index →
        ∀ x, (update_matches engine bookmarks query).match_list[j]? = some x →
          x.score < best.score) :=
  selected_index_of_spec (update_matches engine bookmarks query).match_list h

/-- C2 witness: the amended characterisation instantiated on the tie engine. -/
theorem update_matches_selected_is_first_max_witness :
    (update_matches engine_tie [] []).match_list ≠ [] ∧
    ∃ best,
      (update_matches engine_tie [] []).match_list[
          (update_matches engine_tie [] []).selected_index]? = some best ∧
      (∀ x ∈ (update_matches engine_tie [] []).match_list,
        x.score ≤ best.score) ∧
      (∀ j, j < (update_matches engine_tie [] []).selected_index →
        ∀ x, (update_matches engine_tie [] []).match_list[j]? = some x →
          x.score < best.score) :=
  ⟨by decide, update_matches_selected_is_first_max engine_tie [] [] (by decide)⟩

/-- C1: deletion at the selection does NOT remove at the selected match's
`candidate_id`. On store `[a, b, c]` with filtered matches for candidate ids
0 and 2, the recompute selects index 1 and the selected match's
`candidate_id` is 2; yet `delete_bookmark` receives the ROW index 1 and
removes the bookmark at store position 1 (label `b`, not even present in the
match list), while removal at the candidate id would leave `[a, b]`. -/
theorem delete_at_selection_removes_row_index :
    (update_matches engine_filtered store3 []).selected_index = 1 ∧
    ((update_matches engine_filtered store3 []).match_list[1]?).map
        StringMatch.candidate_id = some 2 ∧
    (delete_at_selection engine_filtered
        (update_matches engine_filtered store3 []) store3 []).map
        DeleteOutcome.store = some [bookmark_a, bookmark_c] ∧
    store3.eraseIdx 2 = [bookmark_a, bookmark_b] ∧
    [bookmark_a, bookmark_c] ≠ [bookmark_a, bookmark_b] := by
  decide

/-- C3: a match whose `candidate_id` is out of range for the current store is
skipped by `render_match`, but `confirm` hits the unchecked store index and
aborts instead of treating the entry as skippable. -/
theorem confirm_out_of_range_faults :
    confirm stale_state store1 = ConfirmResult.fault ∧
    render_match stale_state store1 0 = some none := by
  decide

/-- C4: deleting at selected index 0 does not set the provisional selected
index to `max(0 - 1, 0) = 0`: the unchecked `usize` subtraction `ix - 1`
wraps to `2 ^ 64 - 1` (release) or aborts (debug). -/
theorem delete_at_zero_underflows :
    (delete_at_selection engine_empty zero_state store1 []).map
        (fun o => o.provisional.selected_index) = some (2 ^ 64 - 1) ∧
    ((2 ^ 64 - 1 : Nat) ≠ 0) ∧ max (0 - 1) 0 = 0 := by
  decide

end Bookmarks
